import Mathlib

/-!
# Verification of the productivity-tracking pipeline (`admin_dashboard.py`)

Shallow embedding of the session-reconstruction pipeline:

* `condense_sessions`  : raw per-sample rows → one `MinuteRecord` per
  `(user, minute-bucket)` group, dominant application/status by `mode()[0]`;
* `process_productivity` : sort by `(User, Start)`, scan-merge into sessions
  (60-second gap tolerance), drop long idle blocks, aggregate per hour;
* KPI scalars `total_active_mins`, `total_idle_mins`, `total_hours`,
  `prod_score`.

Modelling choices:

* pandas timestamps become seconds-since-epoch naturals (`Nat`); a minute
  bucket is the floor to a multiple of 60, `time_gap` subtraction is done in
  `ℤ` exactly as `total_seconds()` can be negative;
* `Duration_Mins` and the KPI scalars are exact rationals (`ℚ`).  All the
  duration values reached by the pipeline are small integer-valued floats
  (sums of `1.0`), which binary doubles represent exactly, so `ℚ` arithmetic
  agrees with the float arithmetic of the source on these values;
* Python `round(x, 1)` is modelled as `round (10*x) / 10` with Mathlib's
  `round`.  Python rounds half-to-even on the underlying double; the two
  differ only when `10*x` is an exact half-integer, which is never the case
  at the concrete inputs evaluated below;
* string columns stay `String`; Python compares strings by code point, which
  is the `LinearOrder String` order of Mathlib.  Comparisons inside
  executable definitions go through `strLt` (lexicographic on the underlying
  character lists) so that the kernel can evaluate them; `strLt_iff` links
  them to `<`;
* a pandas `DataFrame` is a `List` of rows; `df.empty` is `List.isEmpty`,
  boolean-mask filters are `List.filter`, and `groupby` (with its default
  `sort=True`) is: sorted deduplicated key list, each key paired with the
  sublist of rows having that key;
* the `Date` column `strftime('%m-%d-%Y')` is modelled as the epoch-day
  index `dateIndex`: the string rendering is injective on calendar days, and
  the column is used only as a grouping key in the logic verified here.
-/

namespace AdminDashboard

/-- Kernel-computable lexicographic comparison of strings, by code point on
the underlying character list.  Agrees with `<` of `LinearOrder String`
(`strLt_iff`); Python compares strings the same way. -/
def strLt (a b : String) : Bool := decide (List.Lex (· < ·) a.data b.data)

/-- One row of the raw `logs` table, after the timezone conversion done by
`load_data`: `user_name`, `created_at` (an instant, here seconds since the
epoch), `status` (`"Active"` or `"Idle"` in intent), `application`. -/
structure RawSample where
  user_name : String
  created_at : Nat
  status : String
  application : String
deriving DecidableEq

/-- One row of the DataFrame built by `condense_sessions`, and equally one
row of the merged-session DataFrame of `process_productivity` (the code
seeds a session with `row.to_dict()`, so both have the same columns):
`User`, `Start`, `End` (field `stop`), `App`, `Status`, `Duration_Mins`
(field `dur`). -/
structure MinuteRecord where
  user : String
  start : Nat
  stop : Nat
  app : String
  status : String
  dur : ℚ
deriving DecidableEq

/-- A merged session has the same columns as a `MinuteRecord`. -/
abbrev Session := MinuteRecord

/-- `created_at.dt.floor('min')`: floor of an instant to its minute. -/
def minuteFloor (t : Nat) : Nat := t / 60 * 60

/-- The `groupby(['user_name', 'minute_bucket'])` key of a raw sample. -/
def bucketKey (s : RawSample) : String × Nat := (s.user_name, minuteFloor s.created_at)

/-- Order in which `groupby` emits `(user_name, minute_bucket)` keys:
lexicographic, user first. -/
def keyLE (a b : String × Nat) : Prop :=
  a.1 < b.1 ∨ (a.1 = b.1 ∧ a.2 ≤ b.2)

instance : DecidableRel keyLE := fun a b =>
  decidable_of_iff (strLt a.1 b.1 = true ∨ (a.1 = b.1 ∧ a.2 ≤ b.2)) (by
    unfold strLt keyLE
    rw [decide_eq_true_iff, String.lt_iff_toList_lt]
    exact Iff.rfl)

instance : IsTotal (String × Nat) keyLE where
  total a b := by
    unfold keyLE
    rcases lt_trichotomy a.1 b.1 with h | h | h
    · exact Or.inl (Or.inl h)
    · rcases le_total a.2 b.2 with h2 | h2
      · exact Or.inl (Or.inr ⟨h, h2⟩)
      · exact Or.inr (Or.inr ⟨h.symm, h2⟩)
    · exact Or.inr (Or.inl h)

instance : IsTrans (String × Nat) keyLE where
  trans a b c hab hbc := by
    unfold keyLE at *
    rcases hab with h | ⟨h, h2⟩ <;> rcases hbc with h' | ⟨h', h2'⟩
    · exact Or.inl (h.trans h')
    · exact Or.inl (h'.symm ▸ h)
    · exact Or.inl (h ▸ h')
    · exact Or.inr ⟨h.trans h', h2.trans h2'⟩

instance : IsAntisymm (String × Nat) keyLE where
  antisymm a b hab hba := by
    unfold keyLE at *
    rcases hab with h | ⟨h, h2⟩ <;> rcases hba with h' | ⟨h', h2'⟩
    · exact absurd (h.trans h') (lt_irrefl _)
    · exact absurd h (h'.symm ▸ lt_irrefl _)
    · exact absurd h' (h.symm ▸ lt_irrefl _)
    · exact Prod.ext h (le_antisymm h2 h2')

/-- The sorted list of distinct group keys: `groupby` with its default
`sort=True` iterates groups in ascending key order. -/
def groupKeys (l : List RawSample) : List (String × Nat) :=
  List.insertionSort keyLE (l.map bucketKey).dedup

/-- The largest multiplicity of any value in `l` (the frequency a value must
reach to be a mode of the series). -/
def maxCount (l : List String) : Nat := (l.map (fun v => l.count v)).foldr max 0

/-- Least string of a list in code-point order (`none` on `[]`). -/
def minString? : List String → Option String
  | [] => none
  | x :: xs =>
    some (match minString? xs with
      | none => x
      | some m => if strLt x m then x else m)

/-- Embedding of `series.mode()[0]`: pandas collects the values of maximal
frequency and returns them **sorted ascending**, so `[0]` is the least such
value; on an empty series `[0]` raises `IndexError`, modelled as `none`
(the surrounding code skips the group: `except IndexError: continue`). -/
def mode0 (l : List String) : Option String :=
  minString? (l.filter (fun v => decide (l.count v = maxCount l)))

/-- The row `condense_sessions` appends for the group of key `k`: minute
floor as `Start`, `Start + 1 minute` as `End`, dominant application and
status by `mode()[0]`, duration `1.0`.  `none` when the group is empty
(the code's `if not group.empty` guard / `IndexError` skip; unreachable for
keys actually formed from samples). -/
def condenseGroup (l : List RawSample) (k : String × Nat) : Option MinuteRecord :=
  let g := l.filter (fun s => decide (bucketKey s = k))
  match mode0 (g.map RawSample.application), mode0 (g.map RawSample.status) with
  | some a, some st =>
    some { user := k.1, start := k.2, stop := k.2 + 60, app := a, status := st, dur := 1 }
  | _, _ => none

/-- `condense_sessions` (lines 132-158): group the raw samples by
`(user_name, minute_bucket)` and emit one `MinuteRecord` per non-empty
group.  An empty input yields the empty DataFrame (the `raw_df.empty` and
`not minutes_data` early returns coincide with what the group loop produces
on an empty list). -/
def condense_sessions (l : List RawSample) : List MinuteRecord :=
  (groupKeys l).filterMap (condenseGroup l)

/-- Comparison used by `sort_values(by=['User', 'Start'])`. -/
def recLE (a b : MinuteRecord) : Prop :=
  a.user < b.user ∨ (a.user = b.user ∧ a.start ≤ b.start)

instance : DecidableRel recLE := fun a b =>
  decidable_of_iff (strLt a.user b.user = true ∨ (a.user = b.user ∧ a.start ≤ b.start))
    (by
      unfold strLt recLE
      rw [decide_eq_true_iff, String.lt_iff_toList_lt]
      exact Iff.rfl)

instance : IsTotal MinuteRecord recLE where
  total a b := by
    unfold recLE
    rcases lt_trichotomy a.user b.user with h | h | h
    · exact Or.inl (Or.inl h)
    · rcases le_total a.start b.start with h2 | h2
      · exact Or.inl (Or.inr ⟨h, h2⟩)
      · exact Or.inr (Or.inr ⟨h.symm, h2⟩)
    · exact Or.inr (Or.inl h)

instance : IsTrans MinuteRecord recLE where
  trans a b c hab hbc := by
    unfold recLE at *
    rcases hab with h | ⟨h, h2⟩ <;> rcases hbc with h' | ⟨h', h2'⟩
    · exact Or.inl (h.trans h')
    · exact Or.inl (h'.symm ▸ h)
    · exact Or.inl (h ▸ h')
    · exact Or.inr ⟨h.trans h', h2.trans h2'⟩

/-- `df.sort_values(by=['User', 'Start'])`. -/
def sortRecs (l : List MinuteRecord) : List MinuteRecord := List.insertionSort recLE l

/-- The merge condition of the scan loop (lines 176-179): same user, same
app, same status, and `time_gap = (row['Start'] - current['End'])`
`.total_seconds() <= 60` — the gap is computed in `ℤ` since it can be
negative. -/
def canMerge (c r : MinuteRecord) : Bool :=
  decide (r.user = c.user) && decide (r.app = c.app) && decide (r.status = c.status) &&
  decide ((r.start : ℤ) - (c.stop : ℤ) ≤ 60)

/-- Absorbing a row into the open session (lines 181-182):
`current['End'] = row['End']; current['Duration_Mins'] += row['Duration_Mins']`. -/
def extendSession (c r : MinuteRecord) : Session :=
  { c with stop := r.stop, dur := c.dur + r.dur }

/-- The scan of lines 166-188, with the mutable `current_session` made an
explicit `Option` accumulator: on each row either absorb it into the open
session or close that session and open a new one seeded from the row; flush
the trailing open session at the end. -/
def mergeLoop : Option Session → List MinuteRecord → List Session
  | none, [] => []
  | some c, [] => [c]
  | none, r :: rs => mergeLoop (some r) rs
  | some c, r :: rs =>
    if canMerge c r then mergeLoop (some (extendSession c r)) rs
    else c :: mergeLoop (some r) rs

/-- The Session Merger: `merged_df` of `process_productivity` before idle
filtering (sort by `(User, Start)`, then the scan loop). -/
def mergeSessions (l : List MinuteRecord) : List Session :=
  mergeLoop none (sortRecs l)

/-- `MAX_IDLE_THRESHOLD_MINS` (line 21). -/
def MAX_IDLE_THRESHOLD_MINS : ℚ := 10

/-- The idle filter (line 193):
`merged_df[~((Status == 'Idle') & (Duration_Mins > threshold))]`. -/
def idleFilter (thr : ℚ) (l : List Session) : List Session :=
  l.filter (fun s => !(decide (s.status = "Idle") && decide (thr < s.dur)))

/-- Epoch-day index of an instant; stands for the `strftime('%m-%d-%Y')`
`Date` column (an injective rendering of the calendar day, used only as a
grouping key in the verified logic). -/
def dateIndex (t : Nat) : Nat := t / 86400

/-- Two-digit zero padding, as in `strftime('%I ...')`. -/
def pad2 (n : Nat) : String := if n < 10 then "0" ++ toString n else toString n

/-- `Start.dt.strftime('%I %p')`: 12-hour clock label of the hour containing
the instant, e.g. `"02 PM"`. -/
def hourLabel (t : Nat) : String :=
  let h := t / 3600 % 24
  pad2 (if h % 12 = 0 then 12 else h % 12) ++ " " ++ (if h < 12 then "AM" else "PM")

/-- `Active_Mins` (line 199): the duration if the status is `Active`, else 0. -/
def activeMins (s : Session) : ℚ := if s.status = "Active" then s.dur else 0

/-- `Idle_Mins` (line 200): the duration if the status is `Idle`, else 0. -/
def idleMins (s : Session) : ℚ := if s.status = "Idle" then s.dur else 0

/-- The `groupby(['User', 'Date', 'Hour', 'App'])` key of a session, every
component derived from the session's `Start` (and its own user/app). -/
def hkey (s : Session) : String × Nat × String × String :=
  (s.user, dateIndex s.start, hourLabel s.start, s.app)

/-- Hourly-groupby key order (user, date, hour label, app — strings by code
point, as pandas sorts the rendered columns). -/
def hkeyLE (a b : String × Nat × String × String) : Prop :=
  a.1 < b.1 ∨ (a.1 = b.1 ∧ (a.2.1 < b.2.1 ∨ (a.2.1 = b.2.1 ∧
    (a.2.2.1 < b.2.2.1 ∨ (a.2.2.1 = b.2.2.1 ∧ a.2.2.2 ≤ b.2.2.2)))))

instance : DecidableRel hkeyLE := fun a b =>
  decidable_of_iff (strLt a.1 b.1 = true ∨ (a.1 = b.1 ∧ (a.2.1 < b.2.1 ∨ (a.2.1 = b.2.1 ∧
      (strLt a.2.2.1 b.2.2.1 = true ∨ (a.2.2.1 = b.2.2.1 ∧ ¬ strLt b.2.2.2 a.2.2.2 = true))))))
    (by
      have e : ∀ x y : String, (strLt x y = true) ↔ x < y := fun x y => by
        unfold strLt
        rw [decide_eq_true_iff, String.lt_iff_toList_lt]
        exact Iff.rfl
      unfold hkeyLE
      simp only [e, not_lt])

/-- `Active_Mins` total of the hourly group of key `k`. -/
def activeAt (l : List Session) (k : String × Nat × String × String) : ℚ :=
  ((l.filter (fun s => decide (hkey s = k))).map activeMins).sum

/-- `Idle_Mins` total of the hourly group of key `k`. -/
def idleAt (l : List Session) (k : String × Nat × String × String) : ℚ :=
  ((l.filter (fun s => decide (hkey s = k))).map idleMins).sum

/-- One row of `grouped_hourly`. -/
structure HourlyRow where
  user : String
  date : Nat
  hour : String
  app : String
  active : ℚ
  idle : ℚ
deriving DecidableEq

/-- `grouped_hourly` (lines 202-204): group the filtered sessions by
`(User, Date, Hour, App)` and sum `Active_Mins` / `Idle_Mins` per group.
The keys come out sorted; the final `sort_values(by=['User','Date','Hour'])`
re-sorts by a prefix of a key the table is already ordered by. -/
def hourlyRows (l : List Session) : List HourlyRow :=
  (List.insertionSort hkeyLE (l.map hkey).dedup).map
    (fun k => ⟨k.1, k.2.1, k.2.2.1, k.2.2.2, activeAt l k, idleAt l k⟩)

/-- `process_productivity` (lines 161-206): on an empty input return the
pair of empty DataFrames; otherwise merge, idle-filter with the configured
threshold, and return `(valid_df, grouped_hourly)`. -/
def process_productivity (l : List MinuteRecord) : List Session × List HourlyRow :=
  if l.isEmpty then ([], [])
  else
    let valid := idleFilter MAX_IDLE_THRESHOLD_MINS (mergeSessions l)
    (valid, hourlyRows valid)

/-- `total_active_mins` (line 223). -/
def total_active_mins (l : List Session) : ℚ :=
  ((l.filter (fun s => decide (s.status = "Active"))).map MinuteRecord.dur).sum

/-- `total_idle_mins` (line 224). -/
def total_idle_mins (l : List Session) : ℚ :=
  ((l.filter (fun s => decide (s.status = "Idle"))).map MinuteRecord.dur).sum

/-- Python `round(x, 1)` on the exact rational value. -/
def round1 (q : ℚ) : ℚ := (round (10 * q) : ℤ) / 10

/-- `total_hours` (line 225): `round((active + idle) / 60, 1)`. -/
def total_hours (l : List Session) : ℚ :=
  round1 ((total_active_mins l + total_idle_mins l) / 60)

/-- `prod_score` (lines 222-229): 0 for an empty session table; otherwise
`round(active / (active + idle) * 100, 1)` guarded by `total_hours > 0`
(not by the denominator itself). -/
def prod_score (l : List Session) : ℚ :=
  if l.isEmpty then 0
  else if 0 < total_hours l then
    round1 (total_active_mins l / (total_active_mins l + total_idle_mins l) * 100)
  else 0

/-- Total `Duration_Mins` of the rows belonging to user `u`. -/
def userDur (u : String) (l : List MinuteRecord) : ℚ :=
  ((l.filter (fun s => decide (s.user = u))).map MinuteRecord.dur).sum

/-- The dominant-value selection as the spec words it: the first value of
maximal frequency **in the group's original sample order**.  Written from
the spec's words, to be compared with `mode0` (the embedding of pandas
`mode()[0]`). -/
def firstEncounteredMode (l : List String) : Option String :=
  l.find? (fun v => decide (l.count v = maxCount l))

/-- Contribution of the open accumulator to user `u`'s total duration. -/
def optDur (u : String) : Option Session → ℚ
  | none => 0
  | some c => if c.user = u then c.dur else 0

/-! ## Bridging lemmas -/

theorem strLt_iff (a b : String) : strLt a b = true ↔ a < b := by
  unfold strLt
  rw [decide_eq_true_iff, String.lt_iff_toList_lt]
  exact Iff.rfl

theorem strLt_false_iff (a b : String) : strLt a b = false ↔ b ≤ a := by
  rw [← not_lt, ← strLt_iff, Bool.not_eq_true, Bool.eq_false_iff, ne_eq]

/-! ## C5 — empty input produces empty output -/

/-- C5: on empty input every stage returns an empty collection and no error:
`condense_sessions` of the empty raw DataFrame is the empty DataFrame, and
`process_productivity` of the empty MinuteRecord DataFrame is the pair of an
empty session list and an empty hourly table. -/
theorem empty_input_empty_output :
    condense_sessions [] = [] ∧ process_productivity [] = ([], []) :=
  ⟨rfl, rfl⟩

/-! ## C4 — the idle-block filter -/

/-- C4: the idle filter removes a session exactly when its status is `Idle`
and its duration exceeds the threshold; `Active` sessions are always kept,
and `Idle` sessions with duration at most the threshold are kept.  The
configured threshold of the dashboard is `MAX_IDLE_THRESHOLD_MINS = 10`. -/
theorem idleFilter_removes_iff (thr : ℚ) (l : List Session) (s : Session) (hs : s ∈ l) :
    MAX_IDLE_THRESHOLD_MINS = 10 ∧
    (s ∈ idleFilter thr l ↔ ¬(s.status = "Idle" ∧ thr < s.dur)) ∧
    (s.status = "Active" → s ∈ idleFilter thr l) ∧
    (s.status = "Idle" → s.dur ≤ thr → s ∈ idleFilter thr l) := by
  have hmem : s ∈ idleFilter thr l ↔ ¬(s.status = "Idle" ∧ thr < s.dur) := by
    rw [idleFilter, List.mem_filter]
    simp only [hs, true_and, Bool.not_eq_true', Bool.and_eq_false_iff, decide_eq_false_iff_not,
      not_and, not_lt]
    tauto
  refine ⟨rfl, hmem, ?_, ?_⟩
  · intro h
    rw [hmem]
    rintro ⟨h1, -⟩
    rw [h] at h1
    exact absurd h1 (by decide)
  · intro _ h2
    rw [hmem]
    rintro ⟨-, h3⟩
    exact absurd h3 (not_lt.mpr h2)

/-- Witness for C4: with threshold 10, a 20-minute `Idle` session is not in
the filtered output, a 20-minute `Active` session is kept, and a 5-minute
`Idle` session is kept. -/
theorem idleFilter_removes_iff_witness :
    MAX_IDLE_THRESHOLD_MINS = 10 ∧
    ((⟨"alice", 0, 1200, "web", "Idle", 20⟩ : Session) ∈
        idleFilter 10 [⟨"alice", 0, 1200, "web", "Idle", 20⟩,
          ⟨"alice", 1200, 2400, "web", "Active", 20⟩, ⟨"alice", 2400, 2700, "web", "Idle", 5⟩] ↔
      ¬((⟨"alice", 0, 1200, "web", "Idle", 20⟩ : Session).status = "Idle" ∧
        10 < (⟨"alice", 0, 1200, "web", "Idle", 20⟩ : Session).dur)) ∧
    ((⟨"alice", 0, 1200, "web", "Idle", 20⟩ : Session).status = "Active" →
      (⟨"alice", 0, 1200, "web", "Idle", 20⟩ : Session) ∈
        idleFilter 10 [⟨"alice", 0, 1200, "web", "Idle", 20⟩,
          ⟨"alice", 1200, 2400, "web", "Active", 20⟩, ⟨"alice", 2400, 2700, "web", "Idle", 5⟩]) ∧
    ((⟨"alice", 0, 1200, "web", "Idle", 20⟩ : Session).status = "Idle" →
      (⟨"alice", 0, 1200, "web", "Idle", 20⟩ : Session).dur ≤ 10 →
      (⟨"alice", 0, 1200, "web", "Idle", 20⟩ : Session) ∈
        idleFilter 10 [⟨"alice", 0, 1200, "web", "Idle", 20⟩,
          ⟨"alice", 1200, 2400, "web", "Active", 20⟩, ⟨"alice", 2400, 2700, "web", "Idle", 5⟩]) :=
  idleFilter_removes_iff 10
    [⟨"alice", 0, 1200, "web", "Idle", 20⟩, ⟨"alice", 1200, 2400, "web", "Active", 20⟩,
      ⟨"alice", 2400, 2700, "web", "Idle", 5⟩]
    ⟨"alice", 0, 1200, "web", "Idle", 20⟩ (by decide)

/-! ## C1 — merging conserves per-user total duration -/

theorem userDur_nil (u : String) : userDur u [] = 0 := rfl

theorem userDur_cons (u : String) (r : MinuteRecord) (l : List MinuteRecord) :
    userDur u (r :: l) = (if r.user = u then r.dur else 0) + userDur u l := by
  by_cases h : r.user = u <;>
    simp [userDur, List.filter_cons, h]

theorem userDur_perm (u : String) {l₁ l₂ : List MinuteRecord} (h : l₁.Perm l₂) :
    userDur u l₁ = userDur u l₂ :=
  ((h.filter _).map MinuteRecord.dur).sum_eq

theorem mergeLoop_userDur (u : String) (rs : List MinuteRecord) :
    ∀ cur : Option Session, userDur u (mergeLoop cur rs) = optDur u cur + userDur u rs := by
  induction rs with
  | nil =>
    intro cur
    cases cur with
    | none => simp [mergeLoop, optDur, userDur]
    | some c => rw [mergeLoop, userDur_cons, userDur_nil, optDur]
  | cons r rest ih =>
    intro cur
    cases cur with
    | none =>
      rw [mergeLoop, ih (some r), userDur_cons, optDur, optDur]
      ring
    | some c =>
      rw [mergeLoop]
      by_cases h : canMerge c r = true
      · rw [if_pos h, ih (some (extendSession c r)), userDur_cons]
        have hu : r.user = c.user := by
          simp only [canMerge, Bool.and_eq_true, decide_eq_true_eq] at h
          exact h.1.1.1
        simp only [optDur, extendSession]
        by_cases hc : c.user = u
        · rw [if_pos hc, if_pos hc, if_pos (hu.trans hc)]
          ring
        · rw [if_neg hc, if_neg hc, if_neg (fun hr => hc (hu ▸ hr))]
          ring_nf
      · rw [if_neg h, userDur_cons, ih (some r), optDur, optDur, userDur_cons]

/-- C1: the Session Merger conserves minutes — for every input list of
MinuteRecords and every user, the total `Duration_Mins` over the sessions
produced by the scan loop (before idle filtering) equals the total
`Duration_Mins` over that user's input records. -/
theorem mergeSessions_conserves_userDur (l : List MinuteRecord) (u : String) :
    userDur u (mergeSessions l) = userDur u l := by
  rw [mergeSessions, mergeLoop_userDur, optDur, zero_add]
  exact userDur_perm u (List.perm_insertionSort recLE l)

/-! ## C2 — the 60-second merge threshold -/

/-- C2 counterexample: two minute-records of the same user/app/status whose
buckets are separated by one missing minute (10:00 and 10:02, so the gap
from the end of the first to the start of the second is exactly 60 seconds)
are **merged into a single session** by the Session Merger, not emitted as
two separate sessions. -/
theorem merge_gap60_counterexample :
    (mergeSessions [⟨"alice", 36000, 36060, "editor", "Active", 1⟩,
        ⟨"alice", 36120, 36180, "editor", "Active", 1⟩]).length = 1 ∧
    ((⟨"alice", 36120, 36180, "editor", "Active", 1⟩ : MinuteRecord).start : ℤ) -
      ((⟨"alice", 36000, 36060, "editor", "Active", 1⟩ : MinuteRecord).stop : ℤ) = 60 :=
  ⟨by decide, by decide⟩

/-- C2 (amended): for two sorted records of equal user, app and status the
Session Merger merges them exactly when the gap from the end of the first to
the start of the second is at most 60 seconds.  For minute buckets this
admits both exactly-adjacent buckets (gap 0) **and** buckets separated by
one missing minute (gap exactly 60); gaps strictly larger than 60 seconds
force a session break. -/
theorem merge_gap_rule (a b : MinuteRecord) (hu : a.user = b.user) (ha : a.app = b.app)
    (hs : a.status = b.status) (hst : a.start ≤ b.start) :
    mergeSessions [a, b] =
      if (b.start : ℤ) - (a.stop : ℤ) ≤ 60 then [extendSession a b] else [a, b] := by
  have hle : recLE a b := Or.inr ⟨hu, hst⟩
  have hsort : sortRecs [a, b] = [a, b] := by
    rw [sortRecs]
    simp only [List.insertionSort, List.orderedInsert]
    rw [if_pos hle]
  have hcm : canMerge a b = decide ((b.start : ℤ) - (a.stop : ℤ) ≤ 60) := by
    rw [canMerge, ← hu, ← ha, ← hs]
    simp
  rw [mergeSessions, hsort]
  simp only [mergeLoop, hcm]
  by_cases hg : (b.start : ℤ) - (a.stop : ℤ) ≤ 60
  · rw [if_pos (decide_eq_true hg), if_pos hg]
  · rw [if_neg (by simpa using hg), if_neg hg]

/-- Witness for C2 (amended), at the one-missing-minute gap: buckets 10:00
and 10:02 (gap exactly 60 s) merge into one extended session. -/
theorem merge_gap_rule_witness :
    mergeSessions [⟨"alice", 36000, 36060, "editor", "Active", 1⟩,
        ⟨"alice", 36120, 36180, "editor", "Active", 1⟩] =
      if ((⟨"alice", 36120, 36180, "editor", "Active", 1⟩ : MinuteRecord).start : ℤ) -
          ((⟨"alice", 36000, 36060, "editor", "Active", 1⟩ : MinuteRecord).stop : ℤ) ≤ 60 then
        [extendSession ⟨"alice", 36000, 36060, "editor", "Active", 1⟩
          ⟨"alice", 36120, 36180, "editor", "Active", 1⟩]
      else [⟨"alice", 36000, 36060, "editor", "Active", 1⟩,
        ⟨"alice", 36120, 36180, "editor", "Active", 1⟩] :=
  merge_gap_rule ⟨"alice", 36000, 36060, "editor", "Active", 1⟩
    ⟨"alice", 36120, 36180, "editor", "Active", 1⟩ rfl rfl rfl (by decide)

/-! ## C3 — the focus-score guard -/

/-- C3 counterexample: for a single 1-minute Active session the denominator
`active + idle` equals 1 (nonzero) and the spec formula yields 100, yet
`prod_score` returns 0: the code guards with `total_hours > 0`, and
`total_hours = round(1/60, 1) = 0`. -/
theorem prod_score_counterexample :
    prod_score [⟨"alice", 0, 60, "editor", "Active", 1⟩] = 0 ∧
    total_active_mins [⟨"alice", 0, 60, "editor", "Active", 1⟩] +
      total_idle_mins [⟨"alice", 0, 60, "editor", "Active", 1⟩] = 1 ∧
    total_active_mins [⟨"alice", 0, 60, "editor", "Active", 1⟩] /
      (total_active_mins [⟨"alice", 0, 60, "editor", "Active", 1⟩] +
        total_idle_mins [⟨"alice", 0, 60, "editor", "Active", 1⟩]) * 100 = 100 := by
  have h1 : total_active_mins [(⟨"alice", 0, 60, "editor", "Active", 1⟩ : Session)] = 1 := by
    norm_num [total_active_mins]
  have h2 : total_idle_mins [(⟨"alice", 0, 60, "editor", "Active", 1⟩ : Session)] = 0 := by
    have hf : List.filter (fun s => decide (s.status = "Idle"))
        [(⟨"alice", 0, 60, "editor", "Active", 1⟩ : Session)] = [] := by decide
    rw [total_idle_mins, hf]
    norm_num
  have h3 : total_hours [(⟨"alice", 0, 60, "editor", "Active", 1⟩ : Session)] = 0 := by
    rw [total_hours, h1, h2]
    norm_num [round1, round_eq]
  refine ⟨?_, ?_, ?_⟩
  · rw [prod_score, h3]
    norm_num
  · rw [h1, h2]
    norm_num
  · rw [h1, h2]
    norm_num

/-- C3 (amended): the focus-score computation never divides by zero, and for
session tables whose total `active + idle` is a whole number `n` of minutes
(always the case in this pipeline, where durations are sums of `1.0`):
if `n < 3` — including the claimed `n = 0` case, but also the nonzero
totals 1 and 2 — the guard `total_hours > 0` fails and the score is 0;
if `n ≥ 3` the score is `round(active / (active + idle) * 100, 1)`. -/
theorem prod_score_guard (l : List Session) (n : ℕ)
    (h : total_active_mins l + total_idle_mins l = (n : ℚ)) :
    (n < 3 → prod_score l = 0) ∧
    (3 ≤ n → prod_score l =
      round1 (total_active_mins l / (total_active_mins l + total_idle_mins l) * 100)) := by
  have e : total_hours l = ((round ((n : ℚ) / 6) : ℤ) : ℚ) / 10 := by
    rw [total_hours, h, round1]
    rw [show (10 : ℚ) * ((n : ℚ) / 60) = (n : ℚ) / 6 from by ring]
  have hpos : 0 < total_hours l ↔ 3 ≤ n := by
    rw [e]
    constructor
    · intro hp
      by_contra hn
      push_neg at hn
      have hn' : (n : ℚ) ≤ 2 := by
        exact_mod_cast Nat.le_of_lt_succ hn
      have hfl : round ((n : ℚ) / 6) ≤ 0 := by
        rw [round_eq]
        have : ⌊(n : ℚ) / 6 + 1 / 2⌋ < 1 := by
          apply Int.floor_lt.mpr
          push_cast
          linarith
        omega
      have hfl' : ((round ((n : ℚ) / 6) : ℤ) : ℚ) ≤ 0 := by exact_mod_cast hfl
      linarith
    · intro h3
      have h3' : (3 : ℚ) ≤ (n : ℚ) := by exact_mod_cast h3
      have hfl : 1 ≤ round ((n : ℚ) / 6) := by
        rw [round_eq]
        apply Int.le_floor.mpr
        push_cast
        linarith
      have hfl' : (1 : ℚ) ≤ ((round ((n : ℚ) / 6) : ℤ) : ℚ) := by exact_mod_cast hfl
      linarith
  constructor
  · intro hn
    rw [prod_score]
    by_cases hemp : l.isEmpty
    · rw [if_pos hemp]
    · rw [if_neg hemp, if_neg (fun hp => absurd (hpos.mp hp) (by omega))]
  · intro h3
    have hne : ¬ l.isEmpty = true := by
      cases l with
      | nil =>
        exfalso
        have h0 : total_active_mins ([] : List Session) + total_idle_mins [] = 0 := by
          norm_num [total_active_mins, total_idle_mins]
        rw [h0] at h
        have : n = 0 := by exact_mod_cast h.symm
        omega
      | cons a as => simp
    rw [prod_score, if_neg hne, if_pos (hpos.mpr h3)]

/-- Witness for C3 (amended): a single 3-minute Active session reaches the
`n ≥ 3` branch, and its score is the rounded formula value. -/
theorem prod_score_guard_witness :
    ((3 : ℕ) < 3 → prod_score [⟨"alice", 0, 180, "editor", "Active", 3⟩] = 0) ∧
    (3 ≤ (3 : ℕ) → prod_score [⟨"alice", 0, 180, "editor", "Active", 3⟩] =
      round1 (total_active_mins [⟨"alice", 0, 180, "editor", "Active", 3⟩] /
        (total_active_mins [⟨"alice", 0, 180, "editor", "Active", 3⟩] +
          total_idle_mins [⟨"alice", 0, 180, "editor", "Active", 3⟩]) * 100)) :=
  prod_score_guard [⟨"alice", 0, 180, "editor", "Active", 3⟩] 3 (by
    have hf : List.filter (fun s => decide (s.status = "Idle"))
        [(⟨"alice", 0, 180, "editor", "Active", 3⟩ : Session)] = [] := by decide
    rw [total_active_mins, total_idle_mins, hf]
    norm_num)

/-! ## C6 — hourly attribution to the start hour -/

/-- C6: the Hourly Aggregator attributes each filtered session wholly to the
`(user, date, hour-label, app)` key derived from the session's **start**:
prepending a session to the table adds its full `Active_Mins`/`Idle_Mins`
contribution to its own key and 0 to every other key (first two conjuncts),
routing the duration by status; concretely, the session 10:58–11:02 of
duration 4.0 ``Active`` contributes 4.0 to the 10 o'clock group and nothing
to the 11 o'clock group. -/
theorem hourly_attribution :
    (∀ (l : List Session) (s : Session) (k : String × Nat × String × String),
      activeAt (s :: l) k = activeAt l k + (if hkey s = k then activeMins s else 0)) ∧
    (∀ (l : List Session) (s : Session) (k : String × Nat × String × String),
      idleAt (s :: l) k = idleAt l k + (if hkey s = k then idleMins s else 0)) ∧
    activeMins ⟨"alice", 39480, 39720, "editor", "Active", 4⟩ = 4 ∧
    idleMins ⟨"alice", 39480, 39720, "editor", "Active", 4⟩ = 0 ∧
    hkey ⟨"alice", 39480, 39720, "editor", "Active", 4⟩ = ("alice", 0, "10 AM", "editor") ∧
    activeAt [⟨"alice", 39480, 39720, "editor", "Active", 4⟩] ("alice", 0, "10 AM", "editor") = 4 ∧
    activeAt [⟨"alice", 39480, 39720, "editor", "Active", 4⟩] ("alice", 0, "11 AM", "editor") = 0 := by
  have key : ∀ (f : Session → ℚ) (l : List Session) (s : Session)
      (k : String × Nat × String × String),
      ((List.filter (fun x => decide (hkey x = k)) (s :: l)).map f).sum =
        ((List.filter (fun x => decide (hkey x = k)) l).map f).sum +
          (if hkey s = k then f s else 0) := by
    intro f l s k
    rw [List.filter_cons]
    by_cases hk : hkey s = k
    · simp [hk, add_comm]
    · simp [hk]
  refine ⟨fun l s k => key activeMins l s k, fun l s k => key idleMins l s k, ?_, ?_, ?_, ?_, ?_⟩
  · rw [activeMins, if_pos rfl]
  · rw [idleMins, if_neg (by decide)]
  · decide
  · have hf : List.filter (fun s => decide (hkey s = ("alice", 0, "10 AM", "editor")))
        [(⟨"alice", 39480, 39720, "editor", "Active", 4⟩ : Session)] =
        [(⟨"alice", 39480, 39720, "editor", "Active", 4⟩ : Session)] := by decide
    rw [activeAt, hf]
    norm_num [activeMins]
  · have hf : List.filter (fun s => decide (hkey s = ("alice", 0, "11 AM", "editor")))
        [(⟨"alice", 39480, 39720, "editor", "Active", 4⟩ : Session)] = [] := by decide
    rw [activeAt, hf]
    norm_num

/-! ## C8 — mode tie-breaking -/

/-- C8 counterexample: in a tied `(user, minute)` group whose samples carry
the applications `"Bmail"` then `"Atlas"` (each with frequency 1), the
first-encountered maximum in sample order is `"Bmail"`, but the condenser
emits `"Atlas"`: pandas `mode()` returns the tied values **sorted**, so
`mode()[0]` is the least one, not the first-encountered one. -/
theorem mode_tiebreak_counterexample :
    condense_sessions [⟨"alice", 0, "Active", "Bmail"⟩, ⟨"alice", 10, "Active", "Atlas"⟩] =
      [⟨"alice", 0, 60, "Atlas", "Active", 1⟩] ∧
    firstEncounteredMode
      (([⟨"alice", 0, "Active", "Bmail"⟩, ⟨"alice", 10, "Active", "Atlas"⟩] : List RawSample).map
        RawSample.application) = some "Bmail" ∧
    ("Atlas" : String) ≠ "Bmail" :=
  ⟨by decide, by decide, by decide⟩

theorem le_foldr_max {L : List ℕ} {x : ℕ} (hx : x ∈ L) : x ≤ L.foldr max 0 := by
  induction L with
  | nil => cases hx
  | cons y ys ih =>
    rcases List.mem_cons.mp hx with rfl | hmem
    · exact le_max_left _ _
    · exact (ih hmem).trans (le_max_right _ _)

theorem count_le_maxCount {g : List String} {v : String} (hv : v ∈ g) :
    g.count v ≤ maxCount g :=
  le_foldr_max (List.mem_map_of_mem (fun w => g.count w) hv)

theorem minString?_spec : ∀ {g : List String} {m : String},
    minString? g = some m → m ∈ g ∧ ∀ v ∈ g, m ≤ v := by
  intro g
  induction g with
  | nil => intro m h; cases h
  | cons x xs ih =>
    intro m h
    rw [minString?] at h
    cases hxs : minString? xs with
    | none =>
      rw [hxs] at h
      have hx : x = m := Option.some.inj h
      subst hx
      have hemp : xs = [] := by
        cases xs with
        | nil => rfl
        | cons a as => rw [minString?] at hxs; cases hxs
      subst hemp
      exact ⟨List.mem_singleton_self x, by intro v hv; rw [List.mem_singleton.mp hv]⟩
    | some m' =>
      rw [hxs] at h
      have h2 : (if strLt x m' = true then x else m') = m := Option.some.inj h
      obtain ⟨hm', hle⟩ := ih hxs
      by_cases hlt : strLt x m' = true
      · rw [if_pos hlt] at h2
        subst h2
        refine ⟨List.mem_cons_self _ _, ?_⟩
        intro v hv
        rcases List.mem_cons.mp hv with rfl | hvm
        · exact le_rfl
        · exact le_of_lt (lt_of_lt_of_le ((strLt_iff _ _).mp hlt) (hle v hvm))
      · rw [if_neg hlt] at h2
        subst h2
        refine ⟨List.mem_cons_of_mem _ hm', ?_⟩
        intro v hv
        rcases List.mem_cons.mp hv with rfl | hvm
        · exact (strLt_false_iff _ _).mp (Bool.eq_false_iff.mpr hlt)
        · exact hle v hvm

theorem mode0_spec {g : List String} {m : String} (h : mode0 g = some m) :
    m ∈ g ∧ (∀ v ∈ g, g.count v ≤ g.count m) ∧ ∀ v ∈ g, g.count v = g.count m → m ≤ v := by
  rw [mode0] at h
  obtain ⟨hmem, hmin⟩ := minString?_spec h
  rw [List.mem_filter] at hmem
  obtain ⟨hg, hcnt⟩ := hmem
  rw [decide_eq_true_eq] at hcnt
  refine ⟨hg, ?_, ?_⟩
  · intro v hv
    rw [hcnt]
    exact count_le_maxCount hv
  · intro v hv hvc
    exact hmin v (List.mem_filter.mpr ⟨hv, by rw [decide_eq_true_eq, hvc, hcnt]⟩)

/-- C8 (amended): the Minute Condenser's dominant application and status for
a group are each a value of maximal frequency in the group, and among tied
maxima the **least value in sorted (code-point) order** is selected —
independent of the group's sample order — because pandas `mode()` returns
the tied modes sorted ascending and the code takes `[0]`. -/
theorem mode_tiebreak_min (l : List RawSample) (k : String × Nat) (rec : MinuteRecord)
    (h : condenseGroup l k = some rec) :
    mode0 ((l.filter (fun s => decide (bucketKey s = k))).map RawSample.application) =
      some rec.app ∧
    mode0 ((l.filter (fun s => decide (bucketKey s = k))).map RawSample.status) =
      some rec.status ∧
    ∀ (g : List String) (m : String), mode0 g = some m →
      m ∈ g ∧ (∀ v ∈ g, g.count v ≤ g.count m) ∧ ∀ v ∈ g, g.count v = g.count m → m ≤ v := by
  rw [condenseGroup] at h
  rcases ha : mode0 ((l.filter (fun s => decide (bucketKey s = k))).map RawSample.application) with
    _ | a
  · rw [ha] at h; cases h
  · rcases hs : mode0 ((l.filter (fun s => decide (bucketKey s = k))).map RawSample.status) with
      _ | st
    · rw [ha, hs] at h; cases h
    · rw [ha, hs] at h
      have hrec :
          ({ user := k.1, start := k.2, stop := k.2 + 60, app := a, status := st, dur := 1 } :
            MinuteRecord) = rec := by cases h; rfl
      refine ⟨?_, ?_, fun g m hm => mode0_spec hm⟩
      · rw [← hrec]
      · rw [← hrec]

/-- Witness for C8 (amended), at the tied group of the counterexample: the
selected dominant app `"Atlas"` has maximal frequency and is the least among
the tied values `"Bmail"`, `"Atlas"`. -/
theorem mode_tiebreak_min_witness :
    mode0 ((([⟨"alice", 0, "Active", "Bmail"⟩, ⟨"alice", 10, "Active", "Atlas"⟩] :
        List RawSample).filter (fun s => decide (bucketKey s = ("alice", 0)))).map
      RawSample.application) =
      some (⟨"alice", 0, 60, "Atlas", "Active", 1⟩ : MinuteRecord).app ∧
    mode0 ((([⟨"alice", 0, "Active", "Bmail"⟩, ⟨"alice", 10, "Active", "Atlas"⟩] :
        List RawSample).filter (fun s => decide (bucketKey s = ("alice", 0)))).map
      RawSample.status) =
      some (⟨"alice", 0, 60, "Atlas", "Active", 1⟩ : MinuteRecord).status ∧
    ∀ (g : List String) (m : String), mode0 g = some m →
      m ∈ g ∧ (∀ v ∈ g, g.count v ≤ g.count m) ∧ ∀ v ∈ g, g.count v = g.count m → m ≤ v :=
  mode_tiebreak_min [⟨"alice", 0, "Active", "Bmail"⟩, ⟨"alice", 10, "Active", "Atlas"⟩]
    ("alice", 0) ⟨"alice", 0, 60, "Atlas", "Active", 1⟩ (by decide)

/-! ## C9 — condensing an already-condensed input is the identity -/

theorem mode0_singleton (x : String) : mode0 [x] = some x := by
  simp [mode0, maxCount, minString?]

theorem filter_bucketKey_single {l : List RawSample}
    (hl : l.Pairwise (fun a b => bucketKey a ≠ bucketKey b)) {s : RawSample} (hs : s ∈ l) :
    l.filter (fun x => decide (bucketKey x = bucketKey s)) = [s] := by
  induction l with
  | nil => cases hs
  | cons a as ih =>
    obtain ⟨hhead, htail⟩ := List.pairwise_cons.mp hl
    rw [List.filter_cons]
    rcases List.mem_cons.mp hs with hseq | hmem
    · rw [hseq]
      rw [if_pos (by simp)]
      have hnil : as.filter (fun x => decide (bucketKey x = bucketKey a)) = [] := by
        rw [List.filter_eq_nil_iff]
        intro x hx
        simp only [decide_eq_true_eq]
        exact fun he => hhead x hx he.symm
      rw [hnil]
    · have hne : bucketKey a ≠ bucketKey s := hhead s hmem
      rw [if_neg (by simp [hne])]
      exact ih htail hmem

theorem condenseGroup_single {l : List RawSample}
    (hl : l.Pairwise (fun a b => bucketKey a ≠ bucketKey b)) {s : RawSample} (hs : s ∈ l) :
    condenseGroup l (bucketKey s) =
      some ⟨s.user_name, minuteFloor s.created_at, minuteFloor s.created_at + 60,
        s.application, s.status, 1⟩ := by
  simp only [condenseGroup]
  rw [filter_bucketKey_single hl hs]
  rw [show ([s].map RawSample.application) = [s.application] from rfl,
    show ([s].map RawSample.status) = [s.status] from rfl,
    mode0_singleton, mode0_singleton]
  rfl

theorem filterMap_eq_map_of {α β : Type} (F : α → Option β) (G : α → β) :
    ∀ L : List α, (∀ x ∈ L, F x = some (G x)) → L.filterMap F = L.map G := by
  intro L
  induction L with
  | nil => intro _; rfl
  | cons a as ih =>
    intro hL
    rw [List.filterMap_cons, hL a (List.mem_cons_self a as), List.map_cons,
      ih (fun x hx => hL x (List.mem_cons_of_mem a hx))]

/-- C9: condensing is idempotent — on a raw input that already has exactly
one sample per `(user, minute)` bucket, `condense_sessions` returns, up to
ordering, one `MinuteRecord` per input sample with the same user,
application and status, start the sample's minute floor, end one minute
later, and duration 1.0. -/
theorem condense_idempotent (l : List RawSample)
    (h : l.Pairwise (fun a b => bucketKey a ≠ bucketKey b)) :
    (condense_sessions l).Perm
      (l.map (fun s => ⟨s.user_name, minuteFloor s.created_at,
        minuteFloor s.created_at + 60, s.application, s.status, 1⟩)) := by
  have hnodup : (l.map bucketKey).Nodup := List.pairwise_map.mpr h
  have hperm : (groupKeys l).Perm (l.map bucketKey) := by
    rw [groupKeys, List.dedup_eq_self.mpr hnodup]
    exact List.perm_insertionSort _ _
  have h1 : (condense_sessions l).Perm ((l.map bucketKey).filterMap (condenseGroup l)) := by
    rw [condense_sessions]
    exact hperm.filterMap _
  have h2 : (l.map bucketKey).filterMap (condenseGroup l) =
      l.filterMap (condenseGroup l ∘ bucketKey) := List.filterMap_map _ _ _
  have h3 : l.filterMap (condenseGroup l ∘ bucketKey) =
      l.map (fun s => (⟨s.user_name, minuteFloor s.created_at,
        minuteFloor s.created_at + 60, s.application, s.status, 1⟩ : MinuteRecord)) :=
    filterMap_eq_map_of _ _ l (fun s hs => condenseGroup_single h hs)
  rw [h2, h3] at h1
  exact h1

/-- Witness for C9: two samples in distinct minute buckets condense to their
own records (up to ordering). -/
theorem condense_idempotent_witness :
    (condense_sessions [⟨"alice", 5, "Active", "editor"⟩, ⟨"bob", 65, "Idle", "web"⟩]).Perm
      (([⟨"alice", 5, "Active", "editor"⟩, ⟨"bob", 65, "Idle", "web"⟩] : List RawSample).map
        (fun s => (⟨s.user_name, minuteFloor s.created_at, minuteFloor s.created_at + 60,
          s.application, s.status, 1⟩ : MinuteRecord))) :=
  condense_idempotent [⟨"alice", 5, "Active", "editor"⟩, ⟨"bob", 65, "Idle", "web"⟩] (by decide)

/-! ## C10 — the pipeline is invariant under permutation of the raw rows -/

theorem maxCount_perm {g1 g2 : List String} (h : g1.Perm g2) : maxCount g1 = maxCount g2 := by
  haveI : LeftCommutative (max : ℕ → ℕ → ℕ) := ⟨fun a b c => max_left_comm a b c⟩
  rw [maxCount, maxCount]
  have h1 : (g1.map (fun v => g1.count v)).Perm (g2.map (fun v => g1.count v)) := h.map _
  have h2 : g2.map (fun v => g1.count v) = g2.map (fun v => g2.count v) :=
    List.map_congr_left (fun v _ => h.count_eq v)
  rw [h2] at h1
  exact h1.foldr_eq 0

theorem minString?_perm {g1 g2 : List String} (h : g1.Perm g2) :
    minString? g1 = minString? g2 := by
  cases h1 : minString? g1 with
  | none =>
    have hg1 : g1 = [] := by
      cases g1 with
      | nil => rfl
      | cons a as => rw [minString?] at h1; cases h1
    subst hg1
    have hg2 : g2 = [] := h.symm.eq_nil
    subst hg2
    rfl
  | some m1 =>
    cases h2 : minString? g2 with
    | none =>
      have hg2 : g2 = [] := by
        cases g2 with
        | nil => rfl
        | cons a as => rw [minString?] at h2; cases h2
      subst hg2
      have : g1 = [] := List.Perm.eq_nil h
      subst this
      cases h1
    | some m2 =>
      obtain ⟨hm1, hle1⟩ := minString?_spec h1
      obtain ⟨hm2, hle2⟩ := minString?_spec h2
      exact congrArg some (le_antisymm (hle1 m2 (h.mem_iff.mpr hm2))
        (hle2 m1 (h.mem_iff.mp hm1)))

theorem mode0_perm {g1 g2 : List String} (h : g1.Perm g2) : mode0 g1 = mode0 g2 := by
  rw [mode0, mode0]
  have h1 := h.filter (fun v => decide (g1.count v = maxCount g1))
  have h2 : g2.filter (fun v => decide (g1.count v = maxCount g1)) =
      g2.filter (fun v => decide (g2.count v = maxCount g2)) :=
    List.filter_congr (fun v _ => by rw [h.count_eq v, maxCount_perm h])
  rw [h2] at h1
  exact minString?_perm h1

theorem condenseGroup_perm {l1 l2 : List RawSample} (h : l1.Perm l2) (k : String × Nat) :
    condenseGroup l1 k = condenseGroup l2 k := by
  have hg : (l1.filter (fun s => decide (bucketKey s = k))).Perm
      (l2.filter (fun s => decide (bucketKey s = k))) := h.filter _
  simp only [condenseGroup]
  rw [mode0_perm (hg.map RawSample.application), mode0_perm (hg.map RawSample.status)]

theorem groupKeys_perm_eq {l1 l2 : List RawSample} (h : l1.Perm l2) :
    groupKeys l1 = groupKeys l2 := by
  have hd : ((l1.map bucketKey).dedup).Perm ((l2.map bucketKey).dedup) := (h.map _).dedup
  have hperm : (groupKeys l1).Perm (groupKeys l2) :=
    ((List.perm_insertionSort keyLE _).trans hd).trans
      (List.perm_insertionSort keyLE _).symm
  exact List.eq_of_perm_of_sorted hperm
    (List.sorted_insertionSort keyLE _) (List.sorted_insertionSort keyLE _)

/-- C10: `condense_sessions` is invariant under permutation of its input
rows — two raw DataFrames with the same rows in different order produce
**identical** condensed output (keys are emitted sorted, and the dominant
value of each group does not depend on encounter order), hence identical
downstream `process_productivity` output. -/
theorem condense_perm_invariant (l1 l2 : List RawSample) (h : l1.Perm l2) :
    condense_sessions l1 = condense_sessions l2 ∧
    process_productivity (condense_sessions l1) = process_productivity (condense_sessions l2) := by
  have hc : condense_sessions l1 = condense_sessions l2 := by
    rw [condense_sessions, condense_sessions, groupKeys_perm_eq h,
      funext (condenseGroup_perm h)]
  exact ⟨hc, by rw [hc]⟩

/-- Witness for C10: swapping two tied same-minute samples changes neither
the condensed records nor the downstream output. -/
theorem condense_perm_invariant_witness :
    condense_sessions [⟨"alice", 0, "Active", "Bmail"⟩, ⟨"alice", 10, "Idle", "Atlas"⟩] =
      condense_sessions [⟨"alice", 10, "Idle", "Atlas"⟩, ⟨"alice", 0, "Active", "Bmail"⟩] ∧
    process_productivity
        (condense_sessions [⟨"alice", 0, "Active", "Bmail"⟩, ⟨"alice", 10, "Idle", "Atlas"⟩]) =
      process_productivity
        (condense_sessions [⟨"alice", 10, "Idle", "Atlas"⟩, ⟨"alice", 0, "Active", "Bmail"⟩]) :=
  condense_perm_invariant [⟨"alice", 0, "Active", "Bmail"⟩, ⟨"alice", 10, "Idle", "Atlas"⟩]
    [⟨"alice", 10, "Idle", "Atlas"⟩, ⟨"alice", 0, "Active", "Bmail"⟩] (by decide)

/-! ## C7 — merger output is ordered and non-overlapping per user -/

/-- Invariant of the scan loop: with an open accumulator `c` and remaining
rows `rs` such that the rows are pairwise user-ordered and non-overlapping,
every remaining row lies at or after the accumulator's end (for its user),
and all spans are non-degenerate, the produced sessions (i) each take their
user and start from the accumulator or from one of the rows, and (ii) are
pairwise ordered by `(user, start)` and non-overlapping per user. -/
theorem mergeLoop_ordered (rs : List MinuteRecord) :
    ∀ c : MinuteRecord,
      rs.Pairwise (fun a b => a.user < b.user ∨ (a.user = b.user ∧ a.stop ≤ b.start)) →
      (∀ r ∈ rs, c.user < r.user ∨ (c.user = r.user ∧ c.stop ≤ r.start)) →
      (∀ r ∈ rs, r.start < r.stop) →
      c.start < c.stop →
      (∀ s ∈ mergeLoop (some c) rs,
        (s.user = c.user ∧ s.start = c.start) ∨ ∃ r ∈ rs, s.user = r.user ∧ s.start = r.start) ∧
      (mergeLoop (some c) rs).Pairwise (fun a b =>
        (a.user < b.user ∨ (a.user = b.user ∧ a.start ≤ b.start)) ∧
        (a.user = b.user → a.stop ≤ b.start)) := by
  induction rs with
  | nil =>
    intro c _ _ _ _
    constructor
    · intro s hs
      rw [mergeLoop, List.mem_singleton] at hs
      exact Or.inl ⟨by rw [hs], by rw [hs]⟩
    · rw [mergeLoop]
      exact List.pairwise_singleton _ _
  | cons r rest ih =>
    intro c hpw hc hrow hcs
    obtain ⟨hr_rest, hpw_rest⟩ := List.pairwise_cons.mp hpw
    have hcr := hc r (List.mem_cons_self r rest)
    rw [mergeLoop]
    by_cases hm : canMerge c r = true
    · rw [if_pos hm]
      have hru : r.user = c.user := by
        simp only [canMerge, Bool.and_eq_true, decide_eq_true_eq] at hm
        exact hm.1.1.1
      have hco : c.stop ≤ r.start := by
        rcases hcr with h' | ⟨-, h2⟩
        · exact absurd (hru ▸ h') (lt_irrefl _)
        · exact h2
      have hc' : ∀ x ∈ rest, (extendSession c r).user < x.user ∨
          ((extendSession c r).user = x.user ∧ (extendSession c r).stop ≤ x.start) := by
        intro x hx
        rcases hr_rest x hx with h' | ⟨h', h2⟩
        · exact Or.inl (show c.user < x.user from hru ▸ h')
        · exact Or.inr ⟨show c.user = x.user from hru ▸ h', h2⟩
      have hcs' : (extendSession c r).start < (extendSession c r).stop :=
        show c.start < r.stop from
          lt_of_le_of_lt (le_trans (le_of_lt hcs) hco) (hrow r (List.mem_cons_self r rest))
      obtain ⟨ihorig, ihpw⟩ := ih (extendSession c r) hpw_rest hc'
        (fun x hx => hrow x (List.mem_cons_of_mem r hx)) hcs'
      constructor
      · intro s hs
        rcases ihorig s hs with ⟨hu, hst⟩ | ⟨x, hx, hux⟩
        · exact Or.inl ⟨hu, hst⟩
        · exact Or.inr ⟨x, List.mem_cons_of_mem r hx, hux⟩
      · exact ihpw
    · rw [if_neg hm]
      obtain ⟨ihorig, ihpw⟩ := ih r hpw_rest hr_rest
        (fun x hx => hrow x (List.mem_cons_of_mem r hx)) (hrow r (List.mem_cons_self r rest))
      constructor
      · intro s hs
        rcases List.mem_cons.mp hs with hsc | hs'
        · exact Or.inl ⟨by rw [hsc], by rw [hsc]⟩
        · rcases ihorig s hs' with ⟨hu, hst⟩ | ⟨x, hx, hux⟩
          · exact Or.inr ⟨r, List.mem_cons_self _ _, hu, hst⟩
          · exact Or.inr ⟨x, List.mem_cons_of_mem r hx, hux⟩
      · rw [List.pairwise_cons]
        refine ⟨?_, ihpw⟩
        intro s hs
        obtain ⟨p, hp, hsu, hss⟩ : ∃ p ∈ r :: rest, s.user = p.user ∧ s.start = p.start := by
          rcases ihorig s hs with ⟨hu, hst⟩ | ⟨x, hx, hux, hsx⟩
          · exact ⟨r, List.mem_cons_self _ _, hu, hst⟩
          · exact ⟨x, List.mem_cons_of_mem r hx, hux, hsx⟩
        rcases hc p hp with h' | ⟨h', h2⟩
        · constructor
          · exact Or.inl (by rw [hsu]; exact h')
          · intro he
            have hcp : c.user = p.user := he.trans hsu
            rw [← hcp] at h'
            exact absurd h' (lt_irrefl _)
        · constructor
          · exact Or.inr ⟨by rw [hsu, ← h'], by
              rw [hss]
              exact le_of_lt (lt_of_lt_of_le hcs h2)⟩
          · intro _
            rw [hss]
            exact h2

/-- C7: on input satisfying the condenser invariants (minute-aligned starts,
one-minute spans, at most one record per user and minute), the Session
Merger's output is ordered by `(user, start)` ascending and the sessions of
each user are pairwise non-overlapping (each later session starts at or
after the end of any earlier session of the same user). -/
theorem merger_sorted_nonoverlapping (l : List MinuteRecord)
    (hdur : ∀ r ∈ l, r.stop = r.start + 60)
    (hmin : ∀ r ∈ l, r.start % 60 = 0)
    (huniq : l.Pairwise (fun a b => a.user = b.user → a.start ≠ b.start)) :
    (mergeSessions l).Pairwise (fun a b =>
      (a.user < b.user ∨ (a.user = b.user ∧ a.start ≤ b.start)) ∧
      (a.user = b.user → a.stop ≤ b.start)) := by
  rw [mergeSessions]
  have hperm : (sortRecs l).Perm l := List.perm_insertionSort recLE l
  have hdur' : ∀ r ∈ sortRecs l, r.stop = r.start + 60 :=
    fun r hr => hdur r (hperm.subset hr)
  have hmin' : ∀ r ∈ sortRecs l, r.start % 60 = 0 :=
    fun r hr => hmin r (hperm.subset hr)
  have huniq' : (sortRecs l).Pairwise (fun a b => a.user = b.user → a.start ≠ b.start) :=
    (hperm.pairwise_iff (fun hxy he hs => hxy he.symm hs.symm)).mpr huniq
  have hsorted : (sortRecs l).Pairwise recLE := List.sorted_insertionSort recLE l
  have hrows : (sortRecs l).Pairwise
      (fun a b => a.user < b.user ∨ (a.user = b.user ∧ a.stop ≤ b.start)) := by
    refine List.Pairwise.imp_of_mem ?_ (hsorted.and huniq')
    intro a b ha hb hab
    obtain ⟨hle, hne⟩ := hab
    rcases hle with h' | ⟨h', h2⟩
    · exact Or.inl h'
    · refine Or.inr ⟨h', ?_⟩
      have hsne := hne h'
      have h60a := hdur' a ha
      have hma := hmin' a ha
      have hmb := hmin' b hb
      omega
  have hlt : ∀ r ∈ sortRecs l, r.start < r.stop := fun r hr => by
    rw [hdur' r hr]
    omega
  cases hl : sortRecs l with
  | nil => simp [mergeLoop]
  | cons r rest =>
    rw [hl] at hrows hlt
    rw [mergeLoop]
    obtain ⟨hr_rest, hpw_rest⟩ := List.pairwise_cons.mp hrows
    exact (mergeLoop_ordered rest r hpw_rest hr_rest
      (fun x hx => hlt x (List.mem_cons_of_mem r hx))
      (hlt r (List.mem_cons_self r rest))).2

/-- Witness for C7: three minute-aligned records (two users, one gap) give a
merger output that is `(user, start)`-ordered and non-overlapping. -/
theorem merger_sorted_nonoverlapping_witness :
    (mergeSessions [⟨"bob", 0, 60, "web", "Active", 1⟩,
        ⟨"alice", 600, 660, "editor", "Active", 1⟩,
        ⟨"alice", 900, 960, "editor", "Active", 1⟩]).Pairwise (fun a b =>
      (a.user < b.user ∨ (a.user = b.user ∧ a.start ≤ b.start)) ∧
      (a.user = b.user → a.stop ≤ b.start)) :=
  merger_sorted_nonoverlapping
    [⟨"bob", 0, 60, "web", "Active", 1⟩, ⟨"alice", 600, 660, "editor", "Active", 1⟩,
      ⟨"alice", 900, 960, "editor", "Active", 1⟩]
    (by decide) (by decide) (by decide)

end AdminDashboard
